import Mathlib

/-!
Verification of the core section-partitioning, filename-sanitization and
page-index-validation logic of the pdf-splitters repository.

The six Python scripts are shallowly embedded as follows.

* `split_pdf_by_content` models the partitioning and writing loop of
  `pdf_split_final.py` / `pdf_split_PyMuPDF_only_parts_chapters.py`
  (function `split_pdf_by_content`, lines 90-136): per-page candidates are
  collected with the guard `if not split_points or split_points[-1]['start_page'] != i`,
  the sentinel `END_OF_DOCUMENT` is appended, adjacent pairs become sections,
  and a section is written only when `end_page_index > start_page_index`
  (the else branch prints "Skipping empty section").
* `split_pdf_by_bookmarks` models `pdf_split_direct.py` lines 71-97: extracted
  bookmarks are sorted (Python's stable sort) by `start_page`, the sentinel
  `END` is appended, and every adjacent range is written (there is no
  empty-section guard and no dedup).
* `split_pdf_by_content_basic` models `pdf_split_content_based.py` lines 64-89:
  candidates in page order, sentinel `END`, every range written, filename from
  `title.replace(' ', '_').replace('/', '-').replace(':', '')`.
* `validOutlineEntries` models the loop of `pdf_split_ai.py` lines 69-72 and
  `pdf_split_langchain+gemini.py` lines 92-96: `page_index = page_num - 1`,
  entry applied iff `0 <= page_index < len(reader.pages)`.
* `add_bookmarks_with_gemini` models the batch loop of `pdf_split_ai.py`
  lines 41-83 (per-document try/except, `continue` on `json.JSONDecodeError`).
* `add_bookmarks_with_langchain` models `pdf_split_langchain+gemini.py`
  lines 73-105 (parse failure dialog; `if bookmarks_added == 0` return before
  the output file is opened).

Python text is modelled as `List Char` (a Python `str` is a sequence of code
points); external library behaviour that the scripts merely call
(`unicodedata.normalize('NFKD', ·)`) is abstracted as an explicit function
argument `normalize`, which is the identity on ASCII input.
-/

namespace PdfSplit

/-- One detected heading occurrence: the dicts
`{'title': ..., 'start_page': ...}` built by the scanning loops. -/
structure Candidate where
  title : String
  start_page : Nat
deriving DecidableEq, Repr

/-- A page range `[startPage, endPage)` with its title, as produced by the
splitting loops from an adjacent pair of split points. -/
structure PdfSection where
  title : String
  startPage : Nat
  endPage : Nat
deriving DecidableEq, Repr

/-! ### Filename sanitization (pdf_split_final.py lines 118-126) -/

/-- Python's regex class `\s` restricted to ASCII (the input has already been
passed through `.encode('ascii', 'ignore')`, so only code points below 128
occur): space, tab, linefeed, vertical tab, form feed, carriage return and the
separator controls 28-31. -/
def pyIsSpace (c : Char) : Bool :=
  c == ' ' || c == '\t' || c == '\n' || c.toNat == 11 || c.toNat == 12 ||
    c == '\r' || c.toNat == 28 || c.toNat == 29 || c.toNat == 30 || c.toNat == 31

/-- `.encode('ascii', 'ignore').decode('utf-8')`: every non-ASCII code point
is dropped. -/
def asciiIgnore (s : List Char) : List Char :=
  s.filter (fun c => decide (c.toNat < 128))

/-- Worker for `re.sub(r'\s+', '_', s)`: the flag records whether we are inside
a whitespace run whose underscore has already been emitted. -/
def collapseWsAux : Bool → List Char → List Char
  | _, [] => []
  | inRun, c :: cs =>
    if pyIsSpace c then
      if inRun then collapseWsAux true cs else '_' :: collapseWsAux true cs
    else c :: collapseWsAux false cs

/-- `re.sub(r'\s+', '_', s)`: each maximal whitespace run becomes a single
underscore. -/
def collapseWs (s : List Char) : List Char := collapseWsAux false s

/-- The character class `[a-zA-Z0-9_\-]` kept by
`re.sub(r'[^a-zA-Z0-9_\-]', '', s)`: ASCII letters (97-122, 65-90),
digits (48-57), underscore and hyphen. -/
def isSafeChar (c : Char) : Bool :=
  decide (97 ≤ c.toNat ∧ c.toNat ≤ 122) || decide (65 ≤ c.toNat ∧ c.toNat ≤ 90) ||
    decide (48 ≤ c.toNat ∧ c.toNat ≤ 57) || c == '_' || c == '-'

/-- `.strip('_')`: remove leading and trailing underscores. -/
def stripUnderscores (s : List Char) : List Char :=
  ((s.dropWhile (· == '_')).reverse.dropWhile (· == '_')).reverse

/-- Lines 118-122 of pdf_split_final.py:
`normalized_title = unicodedata.normalize('NFKD', title).encode('ascii', 'ignore').decode('utf-8')`,
then `\s+` to `_`, then removal of everything outside `[a-zA-Z0-9_\-]`, then
`.strip('_')`, then `[:90]`. `normalize` stands for the external
`unicodedata.normalize('NFKD', ·)`, which is the identity on ASCII titles. -/
def safeTitle (normalize : String → String) (title : String) : List Char :=
  (stripUnderscores
    ((collapseWs (asciiIgnore (normalize title).data)).filter isSafeChar)).take 90

/-- Decimal digits of `n`, most significant first, as printed by `%d`
(`Nat.digits` is little-endian, hence the reverse). Only reached for
`n ≥ 10000`, so the `n = 0` corner of `Nat.digits` is irrelevant. -/
def decChars (n : Nat) : List Char :=
  ((Nat.digits 10 n).map Nat.digitChar).reverse

/-- The format item `{m:04d}`: zero-pad the decimal representation to width 4.
For `m ≤ 9999` these are exactly the four decimal digits of `m`; larger
numbers print in full. -/
def pad4 (m : Nat) : List Char :=
  if m ≤ 9999 then
    [Nat.digitChar (m / 1000), Nat.digitChar (m / 100 % 10),
      Nat.digitChar (m / 10 % 10), Nat.digitChar (m % 10)]
  else decChars m

/-- `page_number_str = f"Page_{start_page_index + 1:04d}"` (line 124). -/
def pageTag (start_page : Nat) : List Char :=
  "Page_".data ++ pad4 (start_page + 1)

/-- The output base name (line 126 without the `.pdf` extension):
`f"{page_number_str}_{safe_title}"`. -/
def filenameBase (normalize : String → String) (title : String)
    (start_page : Nat) : List Char :=
  pageTag start_page ++ '_' :: safeTitle normalize title

/-! ### Content-based partitioning (pdf_split_final.py lines 90-136) -/

/-- One iteration of the candidate-collection loop (lines 90-91):
`if not split_points or split_points[-1]['start_page'] != i:
split_points.append(...)`. -/
def stepSplitPoint (acc : List Candidate) (c : Candidate) : List Candidate :=
  match acc.getLast? with
  | none => acc ++ [c]
  | some l => if l.start_page ≠ c.start_page then acc ++ [c] else acc

/-- The candidate-collection loop over the discovery sequence (page order,
first matching line per page). -/
def collectSplitPoints (cs : List Candidate) : List Candidate :=
  cs.foldl stepSplitPoint []

/-- Append the sentinel split point (`{'title': sentinel, 'start_page': len(doc)}`)
and turn each adjacent pair `(split_points[i], split_points[i+1])` into a
section `[start_page, next_start_page)` titled by the first of the pair
(lines 101-107). -/
def makeSections (pts : List Candidate) (sentinel : String)
    (pageCount : Nat) : List PdfSection :=
  let all := pts ++ [⟨sentinel, pageCount⟩]
  (all.zip all.tail).map (fun p => ⟨p.1.title, p.1.start_page, p.2.start_page⟩)

/-- What the writing loop does with one section: either an output file is
saved under a name, or the section is skipped (printed, not an error). -/
inductive WriteOutcome where
  | written (s : PdfSection) (filename : List Char)
  | skippedEmpty (s : PdfSection)
deriving DecidableEq, Repr

/-- Lines 111-132: `if end_page_index > start_page_index:` save under the
sanitized name, `else:` print "Skipping empty section". -/
def writeContentSection (normalize : String → String) (s : PdfSection) :
    WriteOutcome :=
  if s.startPage < s.endPage then
    .written s (filenameBase normalize s.title s.startPage ++ ".pdf".data)
  else .skippedEmpty s

/-- Result of a splitting run: either the informational "no suitable titles
found" dialog (lines 97-99), or the list of per-section outcomes. -/
inductive SplitResult where
  | noSectionsFound
  | sections (outcomes : List WriteOutcome)
deriving DecidableEq, Repr

/-- The partitioning and writing part of `split_pdf_by_content`
(pdf_split_final.py lines 90-136). -/
def split_pdf_by_content (normalize : String → String)
    (candidates : List Candidate) (pageCount : Nat) : SplitResult :=
  let pts := collectSplitPoints candidates
  if pts = [] then .noSectionsFound
  else .sections ((makeSections pts "END_OF_DOCUMENT" pageCount).map
    (writeContentSection normalize))

/-- The per-section outcomes of a run (empty for `noSectionsFound`). -/
def outcomesOf : SplitResult → List WriteOutcome
  | .noSectionsFound => []
  | .sections outs => outs

/-- The sections for which an output file was produced. -/
def writtenSections (r : SplitResult) : List PdfSection :=
  (outcomesOf r).filterMap (fun o =>
    match o with
    | .written s _ => some s
    | .skippedEmpty _ => none)

/-- The sections that were skipped as empty. -/
def skippedSections (r : SplitResult) : List PdfSection :=
  (outcomesOf r).filterMap (fun o =>
    match o with
    | .written _ _ => none
    | .skippedEmpty s => some s)

/-! ### Bookmark-based partitioning (pdf_split_direct.py lines 71-97) -/

/-- Stable insertion of a candidate into an already sorted list: `c` goes in
front of the first element whose page is not smaller, so elements that came
earlier in the input keep their place among equal keys. -/
def insertByPage (c : Candidate) : List Candidate → List Candidate
  | [] => [c]
  | d :: ds => if d.start_page < c.start_page then d :: insertByPage c ds
      else c :: d :: ds

/-- `bookmark_data.sort(key=lambda x: x['start_page'])` (line 76): Python's
sort is a stable sort by the page key, and a stable insertion sort computes
the same (unique) stably-sorted permutation. -/
def sortByPage (l : List Candidate) : List Candidate := l.foldr insertByPage []

/-- Line 92 of pdf_split_direct.py, without the extension:
`title.replace(' ', '_').replace('/', '-')`. -/
def directBase (title : String) : List Char :=
  (title.data.map (fun c => if c = ' ' then '_' else c)).map
    (fun c => if c = '/' then '-' else c)

/-- Result of a bookmark-splitting run: the "No valid bookmarks found" dialog
(lines 71-73), or the per-range outcomes. -/
inductive BookmarkSplitResult where
  | noValidBookmarks
  | sections (outcomes : List WriteOutcome)
deriving DecidableEq, Repr

/-- The partitioning and writing part of `split_pdf_by_bookmarks`
(pdf_split_direct.py lines 71-97): sort by page, append the `END` sentinel,
and write every adjacent range — there is no dedup step and no empty-section
guard, so each of the `len(bookmark_data) - 1` ranges produces a file. -/
def split_pdf_by_bookmarks (bookmarks : List Candidate) (pageCount : Nat) :
    BookmarkSplitResult :=
  if bookmarks = [] then .noValidBookmarks
  else .sections ((makeSections (sortByPage bookmarks) "END" pageCount).map
    (fun s => .written s (directBase s.title ++ ".pdf".data)))

/-- Outcomes of a bookmark run. -/
def bookmarkOutcomesOf : BookmarkSplitResult → List WriteOutcome
  | .noValidBookmarks => []
  | .sections outs => outs

/-- The sections for which the bookmark flow produced an output file. -/
def bookmarkWrittenSections (r : BookmarkSplitResult) : List PdfSection :=
  (bookmarkOutcomesOf r).filterMap (fun o =>
    match o with
    | WriteOutcome.written s _ => some s
    | WriteOutcome.skippedEmpty _ => none)

/-! ### Content-based splitter without page numbers (pdf_split_content_based.py) -/

/-- Line 84 of pdf_split_content_based.py, without the extension:
`title.replace(' ', '_').replace('/', '-').replace(':', '')`. -/
def contentBasedBase (title : String) : List Char :=
  ((title.data.map (fun c => if c = ' ' then '_' else c)).map
    (fun c => if c = '/' then '-' else c)).filter (fun c => !(c == ':'))

/-- The partitioning and writing part of `split_pdf_by_content` in
pdf_split_content_based.py (lines 64-89): candidates in page-scan order,
sentinel `END`, every adjacent range written (no empty-section guard), name
built from the title alone. -/
def split_pdf_by_content_basic (candidates : List Candidate)
    (pageCount : Nat) : SplitResult :=
  if candidates = [] then .noSectionsFound
  else .sections ((makeSections candidates "END" pageCount).map
    (fun s => .written s (contentBasedBase s.title ++ ".pdf".data)))

/-! ### LLM bookmarking flows -/

deriving instance DecidableEq for Except

/-- The validation loop shared by pdf_split_ai.py (lines 69-72) and
pdf_split_langchain+gemini.py (lines 92-96): for each `(title, page_num)`,
`page_index = page_num - 1` and the outline entry `(title, page_index)` is
added iff `0 <= page_index < len(reader.pages)`. -/
def validOutlineEntries (mapping : List (String × Int)) (pageCount : Nat) :
    List (String × Int) :=
  mapping.filterMap (fun e =>
    let pageIndex := e.2 - 1
    if 0 ≤ pageIndex ∧ pageIndex < (pageCount : Int) then some (e.1, pageIndex)
    else none)

/-- Per-document context of the Gemini batch loop: the document name, its page
count, the outcome of the external upload/generate calls (`Except.error`
models a raised exception), and the result of `json.loads(response.text)`
(`none` models `json.JSONDecodeError`). -/
structure DocCtx where
  name : String
  pageCount : Nat
  llm : Except String String
  parsed : Option (List (String × Int))
deriving DecidableEq, Repr

/-- What one iteration of the batch loop does with one document. -/
inductive DocOutcome where
  | errorLogged (name msg : String)
  | jsonSkipped (name : String)
  | updated (name : String) (entries : List (String × Int))
deriving DecidableEq, Repr

/-- One iteration of the loop body of `add_bookmarks_with_gemini`
(pdf_split_ai.py lines 42-83): an exception from the external calls is caught
by `except Exception` (printed, loop advances); `json.JSONDecodeError` hits
the inner handler, which prints "Could not decode JSON ... Skipping." and
`continue`s, so no entry is added and the file is not rewritten; otherwise the
file is rewritten with the page-validated entries. -/
def processDoc (d : DocCtx) : DocOutcome :=
  match d.llm with
  | .error e => .errorLogged d.name e
  | .ok _ =>
    match d.parsed with
    | none => .jsonSkipped d.name
    | some m => .updated d.name (validOutlineEntries m d.pageCount)

/-- The batch loop `for filename in pdf_files:` of `add_bookmarks_with_gemini`
(pdf_split_ai.py line 42): each document is processed independently. -/
def add_bookmarks_with_gemini (docs : List DocCtx) : List DocOutcome :=
  docs.map processDoc

/-- Result of the single-document LangChain flow. -/
inductive LangchainResult where
  | parseErrorShown
  | noBookmarksInfo
  | saved (outputPath : String) (entries : List (String × Int))
deriving DecidableEq, Repr

/-- The decision part of `add_bookmarks_with_langchain`
(pdf_split_langchain+gemini.py lines 73-105): unparseable model output shows
an error dialog and returns; otherwise entries are validated and counted
(`bookmarks_added`), and `if bookmarks_added == 0:` an informational dialog is
shown and the function returns before `open(output_path, 'wb')`; only
otherwise is the output file written. -/
def add_bookmarks_with_langchain (parsed : Option (List (String × Int)))
    (pageCount : Nat) (inputBaseName outputFolder : String) : LangchainResult :=
  match parsed with
  | none => .parseErrorShown
  | some m =>
    let entries := validOutlineEntries m pageCount
    if entries.length = 0 then .noBookmarksInfo
    else .saved (outputFolder ++ "/updated_" ++ inputBaseName) entries

/-- The files a LangChain run writes: nothing unless it reaches the save. -/
def filesWritten : LangchainResult → List String
  | .saved p _ => [p]
  | _ => []

/-! ### Reference definitions used in the statements -/

/-- A direct recursive rendering of the collection loop, used to reason about
`collectSplitPoints`: `p` is the page of the last appended split point. -/
def dedupeFrom (p : Nat) : List Candidate → List Candidate
  | [] => []
  | c :: cs => if c.start_page = p then dedupeFrom p cs
      else c :: dedupeFrom c.start_page cs

/-- Recursive rendering of `collectSplitPoints` (proved equal below). -/
def dedupe : List Candidate → List Candidate
  | [] => []
  | c :: cs => c :: dedupeFrom c.start_page cs

/-- Modelled from the spec: §4.1 step 1 — "keep only the first candidate title
seen for a given page index" scanning in input order, any later candidate on
an already-seen page is discarded. Spec-side reference point for claim C2. -/
def firstPerPageAux (seen : List Nat) : List Candidate → List Candidate
  | [] => []
  | c :: cs =>
    if c.start_page ∈ seen then firstPerPageAux seen cs
    else c :: firstPerPageAux (c.start_page :: seen) cs

/-- Modelled from the spec: dedup keeping the first candidate per distinct
page index, in input order. -/
def firstPerPage (cs : List Candidate) : List Candidate := firstPerPageAux [] cs

/-- The character repertoire guaranteed for sanitized output names: ASCII
letters, digits, underscore and hyphen (the Prop counterpart of
`isSafeChar`). -/
def isFilenameSafe (c : Char) : Prop :=
  (97 ≤ c.toNat ∧ c.toNat ≤ 122) ∨ (65 ≤ c.toNat ∧ c.toNat ≤ 90) ∨
    (48 ≤ c.toNat ∧ c.toNat ≤ 57) ∨ c = '_' ∨ c = '-'

instance (c : Char) : Decidable (isFilenameSafe c) := by
  unfold isFilenameSafe; infer_instance

/-- The property asserted by claim C1 for a run of the partitioning step, with
the identity normalization (the counterexample title is ASCII): the emitted
sections, if any, are sorted, contiguous, in range, and start at page 0 and
end at `pageCount`. -/
def PartitionClaim (cs : List Candidate) (pageCount : Nat) : Prop :=
  writtenSections (split_pdf_by_content id cs pageCount) ≠ [] →
    List.Chain' (fun s t => s.startPage < t.startPage)
        (writtenSections (split_pdf_by_content id cs pageCount)) ∧
      List.Chain' (fun s t => s.endPage = t.startPage)
        (writtenSections (split_pdf_by_content id cs pageCount)) ∧
      (∀ s ∈ writtenSections (split_pdf_by_content id cs pageCount),
        s.startPage < s.endPage ∧ s.endPage ≤ pageCount) ∧
      (writtenSections (split_pdf_by_content id cs pageCount)).head?.map
          (fun s => s.startPage) = some 0 ∧
      ((writtenSections (split_pdf_by_content id cs pageCount)).getLast?).map
          (fun s => s.endPage) = some pageCount

theorem foldl_stepSplitPoint (cs : List Candidate) :
    ∀ (acc : List Candidate) (l : Candidate), acc.getLast? = some l →
      List.foldl stepSplitPoint acc cs = acc ++ dedupeFrom l.start_page cs := by
  induction cs with
  | nil => intro acc l _; simp [dedupeFrom]
  | cons c cs ih =>
    intro acc l hl
    simp only [List.foldl_cons, dedupeFrom]
    have hstep : stepSplitPoint acc c =
        if l.start_page ≠ c.start_page then acc ++ [c] else acc := by
      simp [stepSplitPoint, hl]
    by_cases h : c.start_page = l.start_page
    · rw [hstep, if_neg (not_not_intro h.symm), if_pos h, ih acc l hl]
    · rw [hstep, if_pos (fun hc => h hc.symm), if_neg h,
        ih (acc ++ [c]) c (by simp), List.append_assoc]
      rfl

theorem collectSplitPoints_eq_dedupe (cs : List Candidate) :
    collectSplitPoints cs = dedupe cs := by
  cases cs with
  | nil => rfl
  | cons c cs =>
    show List.foldl stepSplitPoint (stepSplitPoint [] c) cs = _
    have h1 : stepSplitPoint [] c = [c] := rfl
    rw [h1, foldl_stepSplitPoint cs [c] c (by simp)]
    rfl

theorem dedupeFrom_sublist (p : Nat) (cs : List Candidate) :
    (dedupeFrom p cs).Sublist cs := by
  induction cs generalizing p with
  | nil => exact List.Sublist.refl _
  | cons c cs ih =>
    by_cases h : c.start_page = p
    · simpa [dedupeFrom, h] using (ih p).cons c
    · simpa [dedupeFrom, h] using (ih c.start_page).cons₂ c

theorem dedupe_sublist (cs : List Candidate) : (dedupe cs).Sublist cs := by
  cases cs with
  | nil => exact List.Sublist.refl _
  | cons c cs => exact (dedupeFrom_sublist c.start_page cs).cons₂ c

theorem dedupeFrom_pages (cs : List Candidate) :
    ∀ p, (∀ x ∈ cs, p ≤ x.start_page) →
      List.Pairwise (fun a b => a.start_page ≤ b.start_page) cs →
      (∀ y ∈ dedupeFrom p cs, p < y.start_page) ∧
        List.Pairwise (fun a b => a.start_page < b.start_page) (dedupeFrom p cs) := by
  induction cs with
  | nil => intro p _ _; simp [dedupeFrom]
  | cons c cs ih =>
    intro p hmem hp
    rcases List.pairwise_cons.mp hp with ⟨hc, hcs⟩
    by_cases h : c.start_page = p
    · have := ih p (fun x hx => h ▸ hc x hx) hcs
      simpa [dedupeFrom, h] using this
    · have hpc : p < c.start_page :=
        lt_of_le_of_ne (hmem c (List.mem_cons_self c cs)) (fun hpc => h hpc.symm)
      have := ih c.start_page hc hcs
      refine ⟨?_, ?_⟩
      · intro y hy
        rw [dedupeFrom, if_neg h] at hy
        rcases List.mem_cons.mp hy with rfl | hy
        · exact hpc
        · exact hpc.trans (this.1 y hy)
      · rw [dedupeFrom, if_neg h]
        exact List.pairwise_cons.mpr ⟨this.1, this.2⟩

theorem dedupe_pairwise (cs : List Candidate)
    (h : List.Pairwise (fun a b => a.start_page ≤ b.start_page) cs) :
    List.Pairwise (fun a b => a.start_page < b.start_page) (dedupe cs) := by
  cases cs with
  | nil => simp [dedupe]
  | cons c cs =>
    rcases List.pairwise_cons.mp h with ⟨hc, hcs⟩
    have := dedupeFrom_pages cs c.start_page hc hcs
    exact List.pairwise_cons.mpr ⟨this.1, this.2⟩

end PdfSplit

namespace PdfSplit

theorem makeSections_nil (st : String) (pc : Nat) : makeSections [] st pc = [] := rfl

theorem makeSections_single (a : Candidate) (st : String) (pc : Nat) :
    makeSections [a] st pc = [⟨a.title, a.start_page, pc⟩] := rfl

theorem makeSections_cons₂ (a b : Candidate) (l : List Candidate) (st : String) (pc : Nat) :
    makeSections (a :: b :: l) st pc =
      ⟨a.title, a.start_page, b.start_page⟩ :: makeSections (b :: l) st pc := rfl

theorem makeSections_head (a : Candidate) (tl : List Candidate) (st : String) (pc : Nat) :
    (makeSections (a :: tl) st pc).head?.map (fun s => s.startPage) = some a.start_page := by
  cases tl with
  | nil => rfl
  | cons b l => rfl

theorem makeSections_ne_nil (a : Candidate) (tl : List Candidate) (st : String) (pc : Nat) :
    makeSections (a :: tl) st pc ≠ [] := by
  cases tl with
  | nil => simp [makeSections_single]
  | cons b l => simp [makeSections_cons₂]

theorem makeSections_start_mem (pts : List Candidate) (st : String) (pc : Nat) :
    ∀ s ∈ makeSections pts st pc, s.startPage ∈ pts.map (fun c => c.start_page) := by
  induction pts with
  | nil => simp [makeSections_nil]
  | cons a tl ih =>
    cases tl with
    | nil => simp [makeSections_single]
    | cons b l =>
      intro s hs
      rw [makeSections_cons₂] at hs
      rcases List.mem_cons.mp hs with rfl | hs
      · simp
      · simpa using Or.inr (by simpa using ih s hs)

theorem makeSections_bounds (pts : List Candidate) (st : String) (pc : Nat)
    (hlt : ∀ x ∈ pts, x.start_page < pc)
    (hp : List.Pairwise (fun a b => a.start_page < b.start_page) pts) :
    ∀ s ∈ makeSections pts st pc, s.startPage < s.endPage ∧ s.endPage ≤ pc := by
  induction pts with
  | nil => simp [makeSections_nil]
  | cons a tl ih =>
    cases tl with
    | nil =>
      intro s hs
      rw [makeSections_single] at hs
      rcases List.mem_singleton.mp hs with rfl
      exact ⟨hlt a (by simp), le_refl pc⟩
    | cons b l =>
      intro s hs
      rw [makeSections_cons₂] at hs
      rcases List.pairwise_cons.mp hp with ⟨hab, htl⟩
      rcases List.mem_cons.mp hs with rfl | hs
      · exact ⟨hab b (by simp), le_of_lt (hlt b (by simp))⟩
      · exact ih (fun x hx => hlt x (List.mem_cons_of_mem a hx)) htl s hs

theorem makeSections_contiguous (pts : List Candidate) (st : String) (pc : Nat) :
    List.Chain' (fun s t => s.endPage = t.startPage) (makeSections pts st pc) := by
  induction pts with
  | nil => simp [makeSections_nil]
  | cons a tl ih =>
    cases tl with
    | nil => simp [makeSections_single]
    | cons b l =>
      rw [makeSections_cons₂]
      refine List.chain'_cons'.mpr ⟨?_, ih⟩
      intro t ht
      have := makeSections_head b l st pc
      rw [ht] at this
      simpa using this.symm

theorem makeSections_disjoint (pts : List Candidate) (st : String) (pc : Nat)
    (hp : List.Pairwise (fun a b => a.start_page < b.start_page) pts) :
    List.Pairwise (fun s t => s.endPage ≤ t.startPage) (makeSections pts st pc) := by
  induction pts with
  | nil => simp [makeSections_nil]
  | cons a tl ih =>
    cases tl with
    | nil => simp [makeSections_single]
    | cons b l =>
      rw [makeSections_cons₂]
      rcases List.pairwise_cons.mp hp with ⟨hab, htl⟩
      refine List.pairwise_cons.mpr ⟨?_, ih htl⟩
      intro t ht
      have hmem := makeSections_start_mem (b :: l) st pc t ht
      simp only [List.map_cons, List.mem_cons, List.mem_map] at hmem
      rcases hmem with h | ⟨x, hx, hxe⟩
      · exact le_of_eq h.symm
      · have : b.start_page < x.start_page := (List.pairwise_cons.mp htl).1 x hx
        exact le_of_lt (hxe ▸ this)

theorem makeSections_sorted (pts : List Candidate) (st : String) (pc : Nat)
    (hlt : ∀ x ∈ pts, x.start_page < pc)
    (hp : List.Pairwise (fun a b => a.start_page < b.start_page) pts) :
    List.Chain' (fun s t => s.startPage < t.startPage) (makeSections pts st pc) := by
  have hd := makeSections_disjoint pts st pc hp
  have hb := makeSections_bounds pts st pc hlt hp
  haveI : IsTrans PdfSection (fun s t => s.startPage < t.startPage) :=
    ⟨fun _ _ _ hab hbc => lt_trans hab hbc⟩
  rw [List.chain'_iff_pairwise]
  exact List.Pairwise.imp_of_mem (fun {s t} hs _ h => lt_of_lt_of_le (hb s hs).1 h) hd

theorem makeSections_getLast (pts : List Candidate) (st : String) (pc : Nat) (h : pts ≠ []) :
    ((makeSections pts st pc).getLast?).map (fun s => s.endPage) = some pc := by
  induction pts with
  | nil => exact absurd rfl h
  | cons a tl ih =>
    cases tl with
    | nil => rfl
    | cons b l =>
      rw [makeSections_cons₂]
      have h3 : Option.map (fun s => s.endPage) (makeSections (b :: l) st pc).getLast? =
          some pc := ih (by simp)
      cases hml : makeSections (b :: l) st pc with
      | nil => exact absurd hml (makeSections_ne_nil b l st pc)
      | cons x xs =>
        rw [hml] at h3
        rw [List.getLast?_cons_cons]
        exact h3


end PdfSplit

namespace PdfSplit

theorem writtenSections_all_pos (normalize : String → String) (ss : List PdfSection)
    (h : ∀ s ∈ ss, s.startPage < s.endPage) :
    (ss.map (writeContentSection normalize)).filterMap (fun o =>
      match o with
      | WriteOutcome.written s _ => some s
      | WriteOutcome.skippedEmpty _ => none) = ss := by
  induction ss with
  | nil => rfl
  | cons s ss ih =>
    have hs : s.startPage < s.endPage := h s (by simp)
    simp only [List.map_cons, List.filterMap_cons, writeContentSection, if_pos hs]
    exact congrArg (s :: ·) (ih (fun t ht => h t (List.mem_cons_of_mem s ht)))

theorem dedupe_ne_nil (c : Candidate) (cs : List Candidate) : dedupe (c :: cs) ≠ [] := by
  simp [dedupe]

end PdfSplit

namespace PdfSplit

theorem split_content_eq (normalize : String → String) (cs : List Candidate) (pc : Nat)
    (hne : dedupe cs ≠ []) :
    split_pdf_by_content normalize cs pc =
      .sections ((makeSections (dedupe cs) "END_OF_DOCUMENT" pc).map
        (writeContentSection normalize)) := by
  unfold split_pdf_by_content
  rw [collectSplitPoints_eq_dedupe, if_neg hne]

theorem writtenSections_split_content (normalize : String → String)
    (cs : List Candidate) (pc : Nat) (hne : dedupe cs ≠ [])
    (hpos : ∀ s ∈ makeSections (dedupe cs) "END_OF_DOCUMENT" pc, s.startPage < s.endPage) :
    writtenSections (split_pdf_by_content normalize cs pc) =
      makeSections (dedupe cs) "END_OF_DOCUMENT" pc := by
  rw [split_content_eq normalize cs pc hne]
  show ((makeSections (dedupe cs) "END_OF_DOCUMENT" pc).map
      (writeContentSection normalize)).filterMap _ = _
  exact writtenSections_all_pos normalize _ hpos

/-- Claim C1 (amended): for every nonempty candidate list, given in the
non-decreasing page order in which the scans discover candidates and with all
page indices below `pageCount`, the sections emitted by the partitioning step
of `split_pdf_by_content` are sorted by `startPage`, contiguous,
non-overlapping, satisfy `startPage < endPage ≤ pageCount`, the first emitted
section starts at the FIRST CANDIDATE's page index (not necessarily 0), and
the last emitted section ends at `pageCount`. -/
theorem partition_validity_amended (normalize : String → String)
    (cs : List Candidate) (pc : Nat) (hne : cs ≠ [])
    (hsorted : List.Pairwise (fun a b => a.start_page ≤ b.start_page) cs)
    (hrange : ∀ c ∈ cs, c.start_page < pc) :
    writtenSections (split_pdf_by_content normalize cs pc) ≠ [] ∧
      List.Chain' (fun s t => s.startPage < t.startPage)
        (writtenSections (split_pdf_by_content normalize cs pc)) ∧
      List.Chain' (fun s t => s.endPage = t.startPage)
        (writtenSections (split_pdf_by_content normalize cs pc)) ∧
      List.Pairwise (fun s t => s.endPage ≤ t.startPage)
        (writtenSections (split_pdf_by_content normalize cs pc)) ∧
      (∀ s ∈ writtenSections (split_pdf_by_content normalize cs pc),
        s.startPage < s.endPage ∧ s.endPage ≤ pc) ∧
      (writtenSections (split_pdf_by_content normalize cs pc)).head?.map
          (fun s => s.startPage) = cs.head?.map (fun c => c.start_page) ∧
      ((writtenSections (split_pdf_by_content normalize cs pc)).getLast?).map
          (fun s => s.endPage) = some pc := by
  obtain ⟨c, tl, rfl⟩ : ∃ c tl, cs = c :: tl := by
    cases cs with
    | nil => exact absurd rfl hne
    | cons c tl => exact ⟨c, tl, rfl⟩
  have hdne : dedupe (c :: tl) ≠ [] := dedupe_ne_nil c tl
  have hplt : List.Pairwise (fun a b => a.start_page < b.start_page) (dedupe (c :: tl)) :=
    dedupe_pairwise _ hsorted
  have hrange' : ∀ x ∈ dedupe (c :: tl), x.start_page < pc :=
    fun x hx => hrange x ((dedupe_sublist (c :: tl)).subset hx)
  have hb := makeSections_bounds (dedupe (c :: tl)) "END_OF_DOCUMENT" pc hrange' hplt
  have hws := writtenSections_split_content normalize (c :: tl) pc hdne
    (fun s hs => (hb s hs).1)
  rw [hws]
  refine ⟨?_, ?_, ?_, ?_, ?_, ?_, ?_⟩
  · show makeSections (dedupe (c :: tl)) "END_OF_DOCUMENT" pc ≠ []
    show makeSections (c :: dedupeFrom c.start_page tl) "END_OF_DOCUMENT" pc ≠ []
    exact makeSections_ne_nil _ _ _ _
  · exact makeSections_sorted _ _ _ hrange' hplt
  · exact makeSections_contiguous _ _ _
  · exact makeSections_disjoint _ _ _ hplt
  · exact hb
  · show (makeSections (c :: dedupeFrom c.start_page tl) "END_OF_DOCUMENT" pc).head?.map
        (fun s => s.startPage) = _
    rw [makeSections_head]
    rfl
  · show ((makeSections (c :: dedupeFrom c.start_page tl) "END_OF_DOCUMENT" pc).getLast?).map
        (fun s => s.endPage) = some pc
    exact makeSections_getLast _ _ _ (by simp)

end PdfSplit

namespace PdfSplit

/-- Claim C1 counterexample: for the single candidate `("A", 3)` with
`pageCount = 10`, the partitioning step emits exactly one section
`("A", 3, 10)` whose `startPage` is 3, not 0, so the emitted sections do not
cover pages 0-2 and the first emitted section's `startPage` is not 0. -/
theorem partition_claim_counterexample : ¬ PartitionClaim [⟨"A", 3⟩] 10 := by
  intro h
  have hw : writtenSections (split_pdf_by_content id [⟨"A", 3⟩] 10) = [⟨"A", 3, 10⟩] := by
    decide
  have h4 := (h (by rw [hw]; simp)).2.2.2.1
  rw [hw] at h4
  exact absurd h4 (by decide)

theorem firstPerPageAux_eq_dedupeFrom :
    ∀ (cs : List Candidate) (p : Nat) (seen : List Nat), p ∈ seen →
      (∀ q ∈ seen, q ≤ p) → (∀ x ∈ cs, p ≤ x.start_page) →
      List.Pairwise (fun a b => a.start_page ≤ b.start_page) cs →
      firstPerPageAux seen cs = dedupeFrom p cs := by
  intro cs
  induction cs with
  | nil => intro p seen _ _ _ _; rfl
  | cons c cs ih =>
    intro p seen hp hseen hmem hpw
    rcases List.pairwise_cons.mp hpw with ⟨hc, hcs⟩
    by_cases h : c.start_page ∈ seen
    · have heq : c.start_page = p := le_antisymm (hseen _ h) (hmem c (by simp))
      simp only [firstPerPageAux, if_pos h, dedupeFrom, if_pos heq]
      exact ih p seen hp hseen (fun x hx => heq ▸ hc x hx) hcs
    · have hne : c.start_page ≠ p := fun he => h (he ▸ hp)
      simp only [firstPerPageAux, if_neg h, dedupeFrom, if_neg hne]
      refine congrArg (c :: ·) (ih c.start_page (c.start_page :: seen) (by simp) ?_ hc hcs)
      intro q hq
      rcases List.mem_cons.mp hq with rfl | hq
      · exact le_refl _
      · exact (hseen q hq).trans (hmem c (by simp))

theorem firstPerPage_eq_dedupe (cs : List Candidate)
    (h : List.Pairwise (fun a b => a.start_page ≤ b.start_page) cs) :
    firstPerPage cs = dedupe cs := by
  cases cs with
  | nil => rfl
  | cons c tl =>
    rcases List.pairwise_cons.mp h with ⟨hc, htl⟩
    show firstPerPageAux [] (c :: tl) = _
    simp only [firstPerPageAux, List.not_mem_nil, if_neg (fun h => h)]
    exact congrArg (c :: ·)
      (firstPerPageAux_eq_dedupeFrom tl c.start_page [c.start_page] (by simp)
        (by simp) hc htl)

/-- Claim C2 (amended): in the content flow, for candidate lists given in the
non-decreasing page order of page-then-line discovery, the collection loop
keeps exactly the first candidate per distinct page index (it agrees with the
spec-side first-per-page dedup), so at most one candidate survives per page;
and on the claim's concrete example it emits exactly the claimed sections.
The bookmark flow of pdf_split_direct.py performs no such dedup (see the
counterexample). -/
theorem dedup_by_page_amended :
    (∀ cs : List Candidate, List.Pairwise (fun a b => a.start_page ≤ b.start_page) cs →
      collectSplitPoints cs = firstPerPage cs ∧
        List.Pairwise (fun a b => a.start_page ≠ b.start_page) (collectSplitPoints cs)) ∧
    writtenSections (split_pdf_by_content id
        [⟨"PART I", 0⟩, ⟨"PART I extra", 0⟩, ⟨"Chapter 1", 3⟩, ⟨"Chapter 2", 7⟩] 10) =
      [⟨"PART I", 0, 3⟩, ⟨"Chapter 1", 3, 7⟩, ⟨"Chapter 2", 7, 10⟩] := by
  constructor
  · intro cs h
    refine ⟨by rw [collectSplitPoints_eq_dedupe, firstPerPage_eq_dedupe cs h], ?_⟩
    rw [collectSplitPoints_eq_dedupe]
    exact (dedupe_pairwise cs h).imp (fun hlt => Nat.ne_of_lt hlt)
  · decide

theorem dedup_by_page_amended_witness :
    List.Pairwise (fun a b => a.start_page ≤ b.start_page)
        [(⟨"X", 0⟩ : Candidate), ⟨"Y", 0⟩, ⟨"Z", 2⟩] ∧
      (collectSplitPoints [⟨"X", 0⟩, ⟨"Y", 0⟩, ⟨"Z", 2⟩] =
          firstPerPage [⟨"X", 0⟩, ⟨"Y", 0⟩, ⟨"Z", 2⟩] ∧
        List.Pairwise (fun a b => a.start_page ≠ b.start_page)
          (collectSplitPoints [⟨"X", 0⟩, ⟨"Y", 0⟩, ⟨"Z", 2⟩])) :=
  ⟨by decide, dedup_by_page_amended.1 _ (by decide)⟩

/-- Claim C2 counterexample: in the bookmark flow (pdf_split_direct.py, a
cited source of the claim) there is no per-page dedup, so on the claim's own
example input the second candidate on page 0 still contributes a section
boundary: two written sections share `startPage = 0` and the output is not
the claimed three-section list. -/
theorem dedup_by_page_counterexample :
    ¬ List.Pairwise (fun s t => s.startPage ≠ t.startPage)
      (bookmarkWrittenSections (split_pdf_by_bookmarks
        [⟨"PART I", 0⟩, ⟨"PART I extra", 0⟩, ⟨"Chapter 1", 3⟩, ⟨"Chapter 2", 7⟩] 10)) := by
  decide

end PdfSplit

namespace PdfSplit

theorem partition_validity_amended_witness :
    ([⟨"A", 1⟩, ⟨"B", 2⟩] : List Candidate) ≠ [] ∧
      List.Pairwise (fun a b => a.start_page ≤ b.start_page)
        [(⟨"A", 1⟩ : Candidate), ⟨"B", 2⟩] ∧
      (∀ c ∈ [(⟨"A", 1⟩ : Candidate), ⟨"B", 2⟩], c.start_page < 5) ∧
      ((writtenSections (split_pdf_by_content id [⟨"A", 1⟩, ⟨"B", 2⟩] 5)).getLast?).map
          (fun s => s.endPage) = some 5 :=
  ⟨by decide, by decide, by decide,
    (partition_validity_amended id [⟨"A", 1⟩, ⟨"B", 2⟩] 5 (by decide) (by decide)
      (by decide)).2.2.2.2.2.2⟩

/-- Claim C3 (amended): in the content flow (pdf_split_final.py and the
PyMuPDF variant) every computed section with `endPage ≤ startPage` is skipped
before output — no `written` outcome ever carries such a section, and the
section shows up as a `skippedEmpty` outcome (a printed notice, not an
error). The bookmark flow of pdf_split_direct.py has no such guard (see the
counterexample). -/
theorem degenerate_dropped_amended (normalize : String → String)
    (cs : List Candidate) (pc : Nat) (s : PdfSection) (fn : List Char) :
    (WriteOutcome.written s fn ∈ outcomesOf (split_pdf_by_content normalize cs pc) →
      s.startPage < s.endPage) ∧
    (s ∈ makeSections (collectSplitPoints cs) "END_OF_DOCUMENT" pc →
      s.endPage ≤ s.startPage →
      WriteOutcome.skippedEmpty s ∈ outcomesOf (split_pdf_by_content normalize cs pc)) := by
  unfold split_pdf_by_content
  by_cases hpts : collectSplitPoints cs = []
  · rw [if_pos hpts]
    refine ⟨fun h => absurd h (by simp [outcomesOf]), fun hmem _ => ?_⟩
    rw [hpts] at hmem
    exact absurd hmem (by simp [makeSections_nil])
  · rw [if_neg hpts]
    constructor
    · intro h
      simp only [outcomesOf, List.mem_map] at h
      rcases h with ⟨t, _, ht⟩
      unfold writeContentSection at ht
      by_cases hts : t.startPage < t.endPage
      · rw [if_pos hts] at ht
        cases ht
        exact hts
      · rw [if_neg hts] at ht
        exact absurd ht (by simp)
    · intro hmem hdeg
      simp only [outcomesOf, List.mem_map]
      refine ⟨s, hmem, ?_⟩
      unfold writeContentSection
      rw [if_neg (fun h => absurd hdeg (not_le_of_lt h))]

theorem degenerate_dropped_amended_witness :
    (⟨"A", 5, 3⟩ : PdfSection) ∈
        makeSections (collectSplitPoints [⟨"A", 5⟩]) "END_OF_DOCUMENT" 3 ∧
      (⟨"A", 5, 3⟩ : PdfSection).endPage ≤ (⟨"A", 5, 3⟩ : PdfSection).startPage ∧
      WriteOutcome.skippedEmpty ⟨"A", 5, 3⟩ ∈
        outcomesOf (split_pdf_by_content id [⟨"A", 5⟩] 3) :=
  ⟨by decide, by decide,
    (degenerate_dropped_amended id [⟨"A", 5⟩] 3 ⟨"A", 5, 3⟩ []).2 (by decide) (by decide)⟩

/-- Claim C3 counterexample: the bookmark flow (pdf_split_direct.py, a cited
source of the claim) writes an output file for every adjacent range,
including degenerate ones: with two bookmarks on page 0 of a 1-page document
it produces a `written` outcome for the zero-length section `("X", 0, 0)`. -/
theorem degenerate_dropped_counterexample :
    ¬ (∀ s fn, WriteOutcome.written s fn ∈
        bookmarkOutcomesOf (split_pdf_by_bookmarks [⟨"X", 0⟩, ⟨"Y", 0⟩] 1) →
        s.startPage < s.endPage) := by
  intro h
  have := h ⟨"X", 0, 0⟩ ("X.pdf".data) (by decide)
  exact absurd this (by decide)

/-- Claim C4: an empty candidate list yields the "no sections found"
informational outcome in every splitting flow — no outcome list, hence no
output files and in particular never a single whole-document section — and in
the content flow the collected split-point list is empty exactly when the
input candidate list is empty (the collection loop never discards a first
candidate, so a nonempty list cannot be "fully discarded"). -/
theorem no_candidates_terminal (normalize : String → String) (pc : Nat) :
    split_pdf_by_content normalize [] pc = .noSectionsFound ∧
      split_pdf_by_bookmarks [] pc = .noValidBookmarks ∧
      split_pdf_by_content_basic [] pc = .noSectionsFound ∧
      (∀ cs : List Candidate, collectSplitPoints cs = [] ↔ cs = []) := by
  refine ⟨rfl, rfl, rfl, fun cs => ⟨fun h => ?_, fun h => by rw [h]; rfl⟩⟩
  cases cs with
  | nil => rfl
  | cons c tl =>
    rw [collectSplitPoints_eq_dedupe] at h
    exact absurd h (dedupe_ne_nil c tl)

end PdfSplit

namespace PdfSplit

theorem digitChar_range : ∀ d < 10, 48 ≤ (Nat.digitChar d).toNat ∧ (Nat.digitChar d).toNat ≤ 57 := by
  decide

theorem pad4_chars (m : Nat) : ∀ c ∈ pad4 m, 48 ≤ c.toNat ∧ c.toNat ≤ 57 := by
  intro c hc
  unfold pad4 at hc
  by_cases h : m ≤ 9999
  · rw [if_pos h] at hc
    have h3 : m / 1000 < 10 := by omega
    have h2 : m / 100 % 10 < 10 := Nat.mod_lt _ (by norm_num)
    have h1 : m / 10 % 10 < 10 := Nat.mod_lt _ (by norm_num)
    have h0 : m % 10 < 10 := Nat.mod_lt _ (by norm_num)
    simp only [List.mem_cons, List.not_mem_nil, or_false] at hc
    rcases hc with rfl | rfl | rfl | rfl
    · exact digitChar_range _ h3
    · exact digitChar_range _ h2
    · exact digitChar_range _ h1
    · exact digitChar_range _ h0
  · rw [if_neg h] at hc
    unfold decChars at hc
    rw [List.mem_reverse] at hc
    rcases List.mem_map.mp hc with ⟨d, hd, rfl⟩
    exact digitChar_range d (Nat.digits_lt_base (by norm_num) hd)

theorem stripUnderscores_subset (s : List Char) : ∀ c ∈ stripUnderscores s, c ∈ s := by
  intro c hc
  unfold stripUnderscores at hc
  rw [List.mem_reverse] at hc
  have h1 := (List.dropWhile_sublist (l := (s.dropWhile (· == '_')).reverse)
    (p := (· == '_'))).subset hc
  rw [List.mem_reverse] at h1
  exact (List.dropWhile_sublist (l := s) (p := (· == '_'))).subset h1

theorem safeTitle_chars (normalize : String → String) (title : String) :
    ∀ c ∈ safeTitle normalize title, isFilenameSafe c := by
  intro c hc
  unfold safeTitle at hc
  have h1 := (List.take_sublist 90 _).subset hc
  have h2 := stripUnderscores_subset _ c h1
  have h3 := List.of_mem_filter h2
  simp only [isSafeChar, Bool.or_eq_true, decide_eq_true_eq, beq_iff_eq] at h3
  unfold isFilenameSafe
  tauto

theorem pageWord_chars : ∀ c ∈ "Page_".data, isFilenameSafe c := by decide

theorem filenameBase_chars (normalize : String → String) (title : String) (sp : Nat) :
    ∀ c ∈ filenameBase normalize title sp, isFilenameSafe c := by
  intro c hc
  unfold filenameBase pageTag at hc
  rcases List.mem_append.mp hc with hc | hc
  · rcases List.mem_append.mp hc with hc | hc
    · exact pageWord_chars c hc
    · rcases pad4_chars _ c hc with ⟨hl, hr⟩
      exact Or.inr (Or.inr (Or.inl ⟨hl, hr⟩))
  · rcases List.mem_cons.mp hc with rfl | hc
    · exact Or.inr (Or.inr (Or.inr (Or.inl rfl)))
    · exact safeTitle_chars normalize title c hc

/-- Claim C5 (amended): the enhanced sanitizer of the content flow
(pdf_split_final.py / PyMuPDF variant) is a pure function (deterministic by
construction), and for every title (any Unicode normalization behaviour, any
title text) and every start page the produced base name is non-empty and
consists solely of ASCII letters, digits, underscore and hyphen — in
particular it contains no path separator and no control character. The
bookmark flow's `replace`-based naming has none of these guarantees (see the
counterexample). -/
theorem sanitizer_safety_amended (normalize : String → String) (title : String) (sp : Nat) :
    filenameBase normalize title sp ≠ [] ∧
      (∀ c ∈ filenameBase normalize title sp, isFilenameSafe c) ∧
      '/' ∉ filenameBase normalize title sp ∧
      '\\' ∉ filenameBase normalize title sp ∧
      (∀ c ∈ filenameBase normalize title sp, 32 ≤ c.toNat) ∧
      filenameBase normalize title sp = filenameBase normalize title sp := by
  have hchars := filenameBase_chars normalize title sp
  refine ⟨by simp [filenameBase, pageTag], hchars, ?_, ?_, ?_, rfl⟩
  · intro h
    exact absurd (hchars _ h) (by decide)
  · intro h
    exact absurd (hchars _ h) (by decide)
  · intro c hc
    rcases hchars c hc with ⟨h, _⟩ | ⟨h, _⟩ | ⟨h, _⟩ | rfl | rfl
    · omega
    · omega
    · omega
    · decide
    · decide

theorem sanitizer_safety_amended_witness :
    'P' ∈ filenameBase id "a/b" 0 ∧ isFilenameSafe 'P' ∧ 32 ≤ 'P'.toNat ∧
      filenameBase id "a/b" 0 ≠ [] :=
  ⟨by decide, (sanitizer_safety_amended id "a/b" 0).2.1 'P' (by decide),
    (sanitizer_safety_amended id "a/b" 0).2.2.2.2.1 'P' (by decide),
    (sanitizer_safety_amended id "a/b" 0).1⟩

/-- Claim C5 counterexample: the bookmark flow's name sanitization
(pdf_split_direct.py line 92, `title.replace(' ', '_').replace('/', '-')`),
also cited by the claim, yields an EMPTY base name for the empty title and
passes control characters (here a linefeed) straight through. -/
theorem sanitizer_safety_counterexample :
    directBase "" = [] ∧ '\n' ∈ directBase "a\nb" := by decide

end PdfSplit

namespace PdfSplit

theorem digitChar_lt_digitChar : ∀ b < 10, ∀ a < b, Nat.digitChar a < Nat.digitChar b := by
  decide

theorem digitChar_inj10 : ∀ a < 10, ∀ b < 10, Nat.digitChar a = Nat.digitChar b → a = b := by
  decide

theorem listLt_append_left (P X Y : List Char) (h : X < Y) : P ++ X < P ++ Y := by
  induction P with
  | nil => exact h
  | cons p P ih => exact List.Lex.cons ih

theorem pad4_lt (a b : Nat) (r1 r2 : List Char) (hab : a < b) (hb : b ≤ 9999) :
    pad4 a ++ r1 < pad4 b ++ r2 := by
  have ha : a ≤ 9999 := le_of_lt (lt_of_lt_of_le hab hb)
  rw [pad4, if_pos ha, pad4, if_pos hb]
  simp only [List.cons_append, List.nil_append]
  rcases Nat.lt_trichotomy (a / 1000) (b / 1000) with h3 | h3 | h3
  · exact List.Lex.rel (digitChar_lt_digitChar _ (by omega) _ h3)
  · rw [h3]
    refine List.Lex.cons ?_
    rcases Nat.lt_trichotomy (a / 100 % 10) (b / 100 % 10) with h2 | h2 | h2
    · exact List.Lex.rel (digitChar_lt_digitChar _ (by omega) _ h2)
    · rw [h2]
      refine List.Lex.cons ?_
      rcases Nat.lt_trichotomy (a / 10 % 10) (b / 10 % 10) with h1 | h1 | h1
      · exact List.Lex.rel (digitChar_lt_digitChar _ (by omega) _ h1)
      · rw [h1]
        refine List.Lex.cons ?_
        have h0 : a % 10 < b % 10 := by omega
        exact List.Lex.rel (digitChar_lt_digitChar _ (by omega) _ h0)
      · omega
    · omega
  · omega

end PdfSplit

namespace PdfSplit

theorem pad4_length_of_le (m : Nat) (h : m ≤ 9999) : (pad4 m).length = 4 := by
  rw [pad4, if_pos h]
  rfl

theorem pad4_length_of_gt (m : Nat) (h : 10000 ≤ m) : 5 ≤ (pad4 m).length := by
  rw [pad4, if_neg (by omega)]
  unfold decChars
  rw [List.length_reverse, List.length_map,
    Nat.digits_len 10 m (by norm_num) (by omega)]
  have : 4 ≤ Nat.log 10 m :=
    (Nat.pow_le_iff_le_log (by norm_num) (by omega)).mp (by omega)
  omega

theorem underscore_append_ne_of_shorter (A B s1 s2 : List Char)
    (hlen : A.length < B.length)
    (hB : ∀ c ∈ B, 48 ≤ c.toNat ∧ c.toNat ≤ 57) :
    A ++ '_' :: s1 ≠ B ++ '_' :: s2 := by
  intro heq
  have hL : (A ++ '_' :: s1)[A.length]? = some '_' := by
    rw [List.getElem?_append_right (le_refl A.length), Nat.sub_self]
    simp
  have hR : (B ++ '_' :: s2)[A.length]? = B[A.length]? := by
    rw [List.getElem?_append, if_pos hlen]
  rw [heq, hR] at hL
  rcases List.getElem?_eq_some_iff.mp hL with ⟨hlt, hget⟩
  have := hB _ (hget ▸ List.getElem_mem hlt)
  revert this
  decide

theorem map_digitChar_inj (l1 l2 : List Nat)
    (h1 : ∀ x ∈ l1, x < 10) (h2 : ∀ x ∈ l2, x < 10)
    (h : l1.map Nat.digitChar = l2.map Nat.digitChar) : l1 = l2 := by
  induction l1 generalizing l2 with
  | nil => cases l2 with
    | nil => rfl
    | cons y l2 => exact absurd h (by simp)
  | cons x l1 ih =>
    cases l2 with
    | nil => exact absurd h (by simp)
    | cons y l2 =>
      simp only [List.map_cons, List.cons.injEq] at h
      have hx := h1 x (by simp)
      have hy := h2 y (by simp)
      rw [digitChar_inj10 x hx y hy h.1,
        ih l2 (fun z hz => h1 z (List.mem_cons_of_mem x hz))
          (fun z hz => h2 z (List.mem_cons_of_mem y hz)) h.2]

theorem pad4_append_inj (a b : Nat) (s1 s2 : List Char)
    (heq : pad4 a ++ '_' :: s1 = pad4 b ++ '_' :: s2) : a = b := by
  rcases Nat.lt_trichotomy (pad4 a).length (pad4 b).length with hl | hl | hl
  · exact absurd heq (underscore_append_ne_of_shorter _ _ _ _ hl (pad4_chars b))
  · have hp : pad4 a = pad4 b := (List.append_inj heq hl).1
    by_cases ha : a ≤ 9999
    · by_cases hb : b ≤ 9999
      · rw [pad4, if_pos ha, pad4, if_pos hb] at hp
        simp only [List.cons.injEq, and_true] at hp
        rcases hp with ⟨e3, e2, e1, e0⟩
        have d3 := digitChar_inj10 _ (by omega) _ (by omega) e3
        have d2 := digitChar_inj10 _ (Nat.mod_lt _ (by norm_num)) _
          (Nat.mod_lt _ (by norm_num)) e2
        have d1 := digitChar_inj10 _ (Nat.mod_lt _ (by norm_num)) _
          (Nat.mod_lt _ (by norm_num)) e1
        have d0 := digitChar_inj10 _ (Nat.mod_lt _ (by norm_num)) _
          (Nat.mod_lt _ (by norm_num)) e0
        omega
      · have := pad4_length_of_le a ha
        have := pad4_length_of_gt b (by omega)
        omega
    · by_cases hb : b ≤ 9999
      · have := pad4_length_of_gt a (by omega)
        have := pad4_length_of_le b hb
        omega
      · rw [pad4, if_neg ha, pad4, if_neg hb] at hp
        unfold decChars at hp
        have hmaps := List.reverse_injective hp
        have hdig := map_digitChar_inj _ _
          (fun x hx => Nat.digits_lt_base (by norm_num) hx)
          (fun x hx => Nat.digits_lt_base (by norm_num) hx) hmaps
        exact Nat.digits_inj_iff.mp hdig
  · exact absurd heq.symm (underscore_append_ne_of_shorter _ _ _ _ hl (pad4_chars a))

end PdfSplit

namespace PdfSplit

/-- Claim C6 (amended): in the flows that build names with the `Page_%04d`
token (pdf_split_final.py and the PyMuPDF variant), any two sections of the
same document with distinct start pages get distinct base filenames
(whatever the titles); and as long as the 1-indexed page numbers stay within
the fixed four-digit width (at most 9999), the base filenames sort in
document order in the lexicographic order on their characters. Beyond page
9999 the zero-padding is no longer fixed-width and the lexicographic
guarantee fails (see the counterexample), and the pdf_split_content_based.py
flow has no page token at all, so its filenames can collide. -/
theorem filename_order_amended (normalize : String → String) (t1 t2 : String)
    (p1 p2 : Nat) :
    (p1 ≠ p2 → filenameBase normalize t1 p1 ≠ filenameBase normalize t2 p2) ∧
      (p1 < p2 → p2 + 1 ≤ 9999 →
        filenameBase normalize t1 p1 < filenameBase normalize t2 p2) := by
  constructor
  · intro hne heq
    unfold filenameBase pageTag at heq
    rw [List.append_assoc, List.append_assoc] at heq
    have h2 := List.append_cancel_left heq
    exact hne (by have := pad4_append_inj _ _ _ _ h2; omega)
  · intro hlt hle
    unfold filenameBase pageTag
    rw [List.append_assoc, List.append_assoc]
    exact listLt_append_left _ _ _ (pad4_lt _ _ _ _ (by omega) hle)

theorem filename_order_amended_witness :
    (0 : Nat) ≠ 1 ∧ (0 : Nat) < 1 ∧ 1 + 1 ≤ 9999 ∧
      filenameBase id "b" 0 ≠ filenameBase id "a" 1 ∧
      filenameBase id "b" 0 < filenameBase id "a" 1 :=
  ⟨by decide, by decide, by decide,
    (filename_order_amended id "b" "a" 0 1).1 (by decide),
    (filename_order_amended id "b" "a" 0 1).2 (by decide) (by decide)⟩

theorem digits_ten_thousand : Nat.digits 10 10000 = [0, 0, 0, 0, 1] := by
  rw [Nat.digits_def' (by norm_num : (1 : ℕ) < 10) (by norm_num)]
  rw [Nat.digits_def' (by norm_num : (1 : ℕ) < 10) (by norm_num)]
  rw [Nat.digits_def' (by norm_num : (1 : ℕ) < 10) (by norm_num)]
  rw [Nat.digits_def' (by norm_num : (1 : ℕ) < 10) (by norm_num)]
  norm_num

theorem pad4_ten_thousand : pad4 10000 = "10000".data := by
  rw [pad4, if_neg (by norm_num)]
  unfold decChars
  rw [digits_ten_thousand]
  decide

/-- Claim C6 counterexample: (a) in pdf_split_content_based.py (a cited
source) the filename ignores the start page entirely, so the two sections
`("Intro", 0, 3)` and `("Intro", 3, 5)` — distinct start pages — are both
written to `Intro.pdf`; (b) even with the `Page_%04d` token, page 10000
breaks the fixed width: the file for startPage 9999 (token `Page_10000`)
sorts lexicographically BEFORE the file for startPage 9998 (token
`Page_9999`), against document order. -/
theorem filename_order_counterexample :
    (WriteOutcome.written ⟨"Intro", 0, 3⟩ ("Intro.pdf".data) ∈
        outcomesOf (split_pdf_by_content_basic [⟨"Intro", 0⟩, ⟨"Intro", 3⟩] 5) ∧
      WriteOutcome.written ⟨"Intro", 3, 5⟩ ("Intro.pdf".data) ∈
        outcomesOf (split_pdf_by_content_basic [⟨"Intro", 0⟩, ⟨"Intro", 3⟩] 5) ∧
      (0 : Nat) ≠ 3) ∧
    (9998 < 9999 ∧ filenameBase id "a" 9999 < filenameBase id "a" 9998) := by
  refine ⟨by decide, by norm_num, ?_⟩
  have h1 : filenameBase id "a" 9999 = "Page_10000_a".data := by
    unfold filenameBase pageTag
    rw [show (9999 : Nat) + 1 = 10000 from rfl, pad4_ten_thousand]
    decide
  have h2 : filenameBase id "a" 9998 = "Page_9999_a".data := by decide
  rw [h1, h2]
  decide

end PdfSplit

namespace PdfSplit

/-- Claim C7: on the ASCII title `"  Chapter 1: A/New Beginning?? "` (where
NFKD normalization is the identity, here `id`) with start page 0, the
sanitization pipeline produces exactly the base filename
`Page_0001_Chapter_1_ANew_Beginning`. -/
theorem scenario_d_filename :
    filenameBase id "  Chapter 1: A/New Beginning?? " 0 =
      "Page_0001_Chapter_1_ANew_Beginning".data := by
  decide

/-- Claim C8: in the LLM bookmarking flows, an outline entry `(t, i)` is
applied exactly when the mapping contains `(t, p)` with `1 ≤ p ≤ pageCount`
and `i = p - 1` (0-indexed); entries with `pageNumber < 1` or
`pageNumber > pageCount` are excluded without aborting (the loop is total),
and every in-range entry is still applied. -/
theorem outline_entry_validation (m : List (String × Int)) (pc : Nat)
    (t : String) (i : Int) :
    (t, i) ∈ validOutlineEntries m pc ↔
      ∃ p : Int, (t, p) ∈ m ∧ 1 ≤ p ∧ p ≤ (pc : Int) ∧ i = p - 1 := by
  unfold validOutlineEntries
  rw [List.mem_filterMap]
  constructor
  · rintro ⟨⟨t', p⟩, hmem, hsome⟩
    by_cases h : 0 ≤ p - 1 ∧ p - 1 < (pc : Int)
    · rw [if_pos h] at hsome
      simp only [Option.some.injEq, Prod.mk.injEq] at hsome
      obtain ⟨rfl, hi⟩ := hsome
      exact ⟨p, hmem, by omega, by omega, hi.symm⟩
    · rw [if_neg h] at hsome
      exact absurd hsome (by simp)
  · rintro ⟨p, hmem, h1, h2, rfl⟩
    exact ⟨(t, p), hmem, by rw [if_pos ⟨by omega, by omega⟩]⟩

/-- Claim C9: the Gemini batch loop processes every document: the outcome
list has one entry per input and the outcome of the i-th document depends on
that document alone, so one document's failure never prevents processing of
the rest; a raised exception is caught and logged, and an LLM response that
is not valid JSON is recovered by skipping (zero bookmark entries added, the
file is not rewritten) rather than aborting the batch. -/
theorem batch_isolation (docs : List DocCtx) (i : Nat) (d : DocCtx)
    (hd : docs[i]? = some d) :
    (add_bookmarks_with_gemini docs).length = docs.length ∧
      (add_bookmarks_with_gemini docs)[i]? = some (processDoc d) ∧
      (∀ msg, d.llm = .error msg → processDoc d = .errorLogged d.name msg) ∧
      (∀ txt, d.llm = .ok txt → d.parsed = none →
        processDoc d = .jsonSkipped d.name) := by
  refine ⟨List.length_map docs processDoc, ?_, ?_, ?_⟩
  · rw [add_bookmarks_with_gemini, List.getElem?_map, hd]
    rfl
  · intro msg hmsg
    unfold processDoc
    rw [hmsg]
  · intro txt htxt hparsed
    unfold processDoc
    rw [htxt, hparsed]

theorem batch_isolation_witness :
    ([⟨"bad.pdf", 4, .error "boom", none⟩,
        ⟨"ok.pdf", 4, .ok "txt", some [("Intro", 2)]⟩] : List DocCtx)[0]? =
        some ⟨"bad.pdf", 4, .error "boom", none⟩ ∧
      (add_bookmarks_with_gemini
          [⟨"bad.pdf", 4, .error "boom", none⟩,
            ⟨"ok.pdf", 4, .ok "txt", some [("Intro", 2)]⟩]).length = 2 ∧
      (add_bookmarks_with_gemini
          [⟨"bad.pdf", 4, .error "boom", none⟩,
            ⟨"ok.pdf", 4, .ok "txt", some [("Intro", 2)]⟩])[0]? =
        some (processDoc ⟨"bad.pdf", 4, .error "boom", none⟩) :=
  ⟨by decide,
    (batch_isolation [⟨"bad.pdf", 4, .error "boom", none⟩,
        ⟨"ok.pdf", 4, .ok "txt", some [("Intro", 2)]⟩] 0
      ⟨"bad.pdf", 4, .error "boom", none⟩ (by decide)).1,
    (batch_isolation [⟨"bad.pdf", 4, .error "boom", none⟩,
        ⟨"ok.pdf", 4, .ok "txt", some [("Intro", 2)]⟩] 0
      ⟨"bad.pdf", 4, .error "boom", none⟩ (by decide)).2.1⟩

/-- Claim C10: in the single-document LangChain flow, if no mapping entry
passes page validation the run ends with the informational
`noBookmarksInfo` outcome and writes no file at all (so the input PDF is
untouched); an output file is written exactly when at least one bookmark was
added, and then it is the single file `outputFolder/updated_<input name>`. -/
theorem langchain_zero_bookmarks (m : List (String × Int)) (pc : Nat)
    (inName outFolder : String) :
    (validOutlineEntries m pc = [] →
      add_bookmarks_with_langchain (some m) pc inName outFolder = .noBookmarksInfo ∧
        filesWritten (add_bookmarks_with_langchain (some m) pc inName outFolder) = []) ∧
      (validOutlineEntries m pc ≠ [] →
        add_bookmarks_with_langchain (some m) pc inName outFolder =
            .saved (outFolder ++ "/updated_" ++ inName) (validOutlineEntries m pc) ∧
          filesWritten (add_bookmarks_with_langchain (some m) pc inName outFolder) =
            [outFolder ++ "/updated_" ++ inName]) := by
  have he : add_bookmarks_with_langchain (some m) pc inName outFolder =
      (if (validOutlineEntries m pc).length = 0 then LangchainResult.noBookmarksInfo
        else .saved (outFolder ++ "/updated_" ++ inName) (validOutlineEntries m pc)) := rfl
  constructor
  · intro h
    have hl : (validOutlineEntries m pc).length = 0 := by rw [h]; rfl
    rw [he, if_pos hl]
    exact ⟨rfl, rfl⟩
  · intro h
    have hl : ¬ (validOutlineEntries m pc).length = 0 := by
      simpa [List.length_eq_zero] using h
    rw [he, if_neg hl]
    exact ⟨rfl, rfl⟩

theorem langchain_zero_bookmarks_witness :
    validOutlineEntries [("Ghost", 999)] 50 = [] ∧
      add_bookmarks_with_langchain (some [("Ghost", 999)]) 50 "in.pdf" "out" =
          .noBookmarksInfo ∧
        filesWritten (add_bookmarks_with_langchain (some [("Ghost", 999)]) 50
          "in.pdf" "out") = [] :=
  ⟨by decide,
    ((langchain_zero_bookmarks [("Ghost", 999)] 50 "in.pdf" "out").1 (by decide)).1,
    ((langchain_zero_bookmarks [("Ghost", 999)] 50 "in.pdf" "out").1 (by decide)).2⟩

end PdfSplit
